import Mathlib

/-!
Verification of the `IQRG-2024` VQE notebook and its XYZ-parser core.

The notebook (`src/keisha-ines/vqe_ground_state.ipynb`) imports a module
`xyz_parse` whose source is not part of the repository snapshot; the parser,
its error taxonomy and its serializer are therefore modelled from the
specification (spec.md sections 3, 4.1, 7, 8).  The caller-side code that is
present in the notebook (the angstrom-to-Bohr conversion and the VQE
optimization loop) is embedded from the notebook source directly.

Strings are modelled as `List Char`; Python floats are modelled as rationals;
whitespace separation is modelled as separation by the space character.
-/

set_option maxRecDepth 4000

deriving instance DecidableEq for Except

/-- Modelled from the spec: the single error kind `FormatError` of the missing
`xyz_parse` module, with one constructor per malformed-input condition listed
in spec section 4.1. -/
inductive FormatError where
  | emptyInput
  | invalidAtomCount
  | missingCommentLine
  | atomCountMismatch
  | extraTrailingData
  | malformedAtomLine
  | nonNumericCoordinate
deriving DecidableEq, Repr

/-- Modelled from the spec: the sole domain entity of the missing `xyz_parse`
module.  `symbols` holds one element symbol per atom, `coordinates` one
3-tuple of numbers per atom (angstroms), index-aligned with `symbols`. -/
structure Molecule where
  symbols : List (List Char)
  coordinates : List (ℚ × ℚ × ℚ)
deriving DecidableEq, Repr

/-- Split a character list at every occurrence of the separator `c`.
Always returns at least one piece. -/
def splitOnChar (c : Char) : List Char → List (List Char)
  | [] => [[]]
  | x :: xs =>
    match splitOnChar c xs with
    | [] => [[]]
    | h :: t => if x = c then [] :: h :: t else (x :: h) :: t

/-- The lines of the input: split at every newline character. -/
def lineSplit (s : List Char) : List (List Char) :=
  splitOnChar '\n' s

/-- Modelled from the spec: the whitespace-separated tokens of a line
(split at spaces, empty pieces dropped, as Python str.split does). -/
def tokenSplit (l : List Char) : List (List Char) :=
  (splitOnChar ' ' l).filter (fun t => t ≠ [])

/-- The decimal digit value of a character, if it is a digit. -/
def digit? (c : Char) : Option ℕ :=
  if '0' ≤ c ∧ c ≤ '9' then some (c.toNat - 48) else none

/-- Read every character of a list as a decimal digit. -/
def readDigits : List Char → Option (List ℕ)
  | [] => some []
  | c :: cs =>
    match digit? c, readDigits cs with
    | some d, some ds => some (d :: ds)
    | _, _ => none

/-- Parse a non-empty all-digit token as a natural number (most significant
digit first). -/
def parseNat? (l : List Char) : Option ℕ :=
  if l = [] then none
  else (readDigits l).map (List.foldl (fun a d => 10 * a + d) 0)

/-- Modelled from the spec: parse an unsigned decimal numeral, either
`digits` or `digits.digits`, as an exact rational value
(`ip.fp` denotes the rational `(ip * 10 ^ |fp| + fp) / 10 ^ |fp|`). -/
def parseUFloat (l : List Char) : Option ℚ :=
  match splitOnChar '.' l with
  | [ip] => (parseNat? ip).map (fun n => mkRat n 1)
  | [ip, fp] =>
    match parseNat? ip, parseNat? fp with
    | some i, some f => some (mkRat (i * 10 ^ fp.length + f) (10 ^ fp.length))
    | _, _ => none
  | _ => none

/-- Modelled from the spec: parse a coordinate token as a floating-point
number, allowing an optional leading sign. -/
def parseFloat (l : List Char) : Option ℚ :=
  match l with
  | [] => none
  | c :: rest =>
    if c = '-' then (parseUFloat rest).map (fun x => -x)
    else if c = '+' then parseUFloat rest
    else parseUFloat (c :: rest)

/-- Modelled from the spec: the declared atom count, read from the first
line of the input; leading and trailing whitespace is ignored and the line
must consist of a single base-10 numeral. -/
def parseCount (l : List Char) : Option ℕ :=
  match tokenSplit l with
  | [t] => parseNat? t
  | _ => none

/-- The declared atom count of a whole input (from its first line). -/
def declaredCount (s : List Char) : Option ℕ :=
  match lineSplit s with
  | l1 :: _ => parseCount l1
  | [] => none

/-- The atom lines of an input: every line after the count line and the
comment line that still contains at least one token. -/
def atomLinesOf (s : List Char) : List (List Char) :=
  ((lineSplit s).drop 2).filter (fun l => tokenSplit l ≠ [])

/-- Modelled from the spec: parse one atom line.  Token 0 is the element
symbol and tokens 1-3 are the coordinates; extra tokens are ignored.
Fewer than 4 tokens is a malformed atom line, a coordinate token that fails
numeric parsing is a non-numeric coordinate. -/
def parseAtomLine (l : List Char) : Except FormatError (List Char × (ℚ × ℚ × ℚ)) :=
  match tokenSplit l with
  | sym :: tx :: ty :: tz :: _ =>
    match parseFloat tx, parseFloat ty, parseFloat tz with
    | some x, some y, some z => .ok (sym, (x, y, z))
    | _, _, _ => .error .nonNumericCoordinate
  | _ => .error .malformedAtomLine

/-- Run a fallible function over a list, stopping at the first error. -/
def mapMExcept (f : α → Except ε β) : List α → Except ε (List β)
  | [] => .ok []
  | x :: xs =>
    match f x with
    | .error e => .error e
    | .ok b =>
      match mapMExcept f xs with
      | .error e => .error e
      | .ok bs => .ok (b :: bs)

/-- Modelled from the spec: `xyz_parse.Molecule.parse` on a character list.
Split the input into lines; parse the atom count from line 1; require a
comment line; collect the non-empty atom lines; require exactly the declared
number of them (the ambiguous trailing-data policy of spec section 9 is
resolved as strict rejection); parse each atom line and accumulate the two
aligned sequences. -/
def parseCore (s : List Char) : Except FormatError Molecule :=
  if s = [] then .error .emptyInput
  else
    match declaredCount s with
    | none => .error .invalidAtomCount
    | some n =>
      if (lineSplit s).length < 2 then .error .missingCommentLine
      else
        let als := atomLinesOf s
        if als.length < n then .error .atomCountMismatch
        else if n < als.length then .error .extraTrailingData
        else
          match mapMExcept parseAtomLine als with
          | .error e => .error e
          | .ok ps => .ok ⟨ps.map Prod.fst, ps.map Prod.snd⟩

/-- Modelled from the spec: `xyz_parse.Molecule.parse` on a string. -/
def Molecule.parse (s : String) : Except FormatError Molecule :=
  parseCore s.data

example :
    Molecule.parse "2\nSample H2 molecule\nH 0.3710 0.0 0.0\nH -0.3710 0.0 0.0" =
      .ok ⟨[['H'], ['H']],
           [(mkRat 371 1000, mkRat 0 1, mkRat 0 1),
            (mkRat (-371) 1000, mkRat 0 1, mkRat 0 1)]⟩ := by
  decide

example : Molecule.parse "" = .error .emptyInput := by decide

example : Molecule.parse "2\ncomment\nH 0.0 0.0 0.0" = .error .atomCountMismatch := by
  decide

example : Molecule.parse "1\ncomment\nH 0.0 0.0" = .error .malformedAtomLine := by
  decide

example : Molecule.parse "1\ncomment\nH x 0.0 0.0" = .error .nonNumericCoordinate := by
  decide

example : Molecule.parse "0\ncomment" = .ok ⟨[], []⟩ := by decide

example : Molecule.parse "1\nc\nH 0.0 0.0 0.0\nHe 1.0 0.0 0.0" = .error .extraTrailingData := by
  decide

/-- The character of a decimal digit value. -/
def digitChar (d : ℕ) : Char :=
  Char.ofNat (48 + d)

/-- The base-10 digits of `n`, least significant first, computed with
explicit fuel (`fuel ≥ n` suffices). -/
def natToRevDigits : ℕ → ℕ → List ℕ
  | 0, _ => []
  | fuel + 1, n => if n = 0 then [] else n % 10 :: natToRevDigits fuel (n / 10)

/-- The decimal numeral of a natural number, as characters. -/
def serializeNat (n : ℕ) : List Char :=
  if n = 0 then ['0'] else ((natToRevDigits n n).reverse.map digitChar)

/-- The fractional part `r < 10 ^ e` printed as exactly `e` digit characters,
left-padded with zeros. -/
def padFrac (e r : ℕ) : List Char :=
  let ds := if r = 0 then [] else (natToRevDigits r r).reverse.map digitChar
  List.replicate (e - ds.length) '0' ++ ds

/-- Modelled from the spec: print one coordinate of a `Molecule` as a signed
decimal numeral with a decimal point.  The exponent `q.den` is always large
enough whenever `q` is a value the parser can produce (a finite decimal). -/
def serializeQ (q : ℚ) : List Char :=
  let e := q.den
  let m := q.num * (10 : ℤ) ^ e / (q.den : ℤ)
  (if m < 0 then ['-'] else []) ++
    serializeNat (m.natAbs / 10 ^ e) ++ '.' :: padFrac e (m.natAbs % 10 ^ e)

/-- Join pieces with a separator character between consecutive pieces. -/
def joinSep (c : Char) : List (List Char) → List Char
  | [] => []
  | [l] => l
  | l :: l' :: ls => l ++ c :: joinSep c (l' :: ls)

/-- Modelled from the spec: print one atom line, `symbol X Y Z`. -/
def serializeAtomLine (sym : List Char) (p : ℚ × ℚ × ℚ) : List Char :=
  joinSep ' ' [sym, serializeQ p.1, serializeQ p.2.1, serializeQ p.2.2]

/-- The comment line emitted by the serializer (content is arbitrary). -/
def commentChars : List Char :=
  ['x', 'y', 'z']

/-- Modelled from the spec: serialize a `Molecule` back to XYZ text, as the
atom count line, a comment line, then one line per atom with the symbol and
its 3 coordinates. -/
def serialize (m : Molecule) : List Char :=
  joinSep '\n'
    (serializeNat m.symbols.length :: commentChars ::
      List.zipWith serializeAtomLine m.symbols m.coordinates)

/-- Modelled from the spec: XYZ serialization of a `Molecule`, as a string. -/
def serializeXYZ (m : Molecule) : String :=
  String.mk (serialize m)

example : serializeXYZ ⟨[['H']], [(mkRat 1 2, mkRat 0 1, mkRat (-3) 4)]⟩ =
    "1\nxyz\nH 0.50 0.0 -0.7500" := by decide

example :
    Molecule.parse (serializeXYZ ⟨[['H']], [(mkRat 1 2, mkRat 0 1, mkRat (-3) 4)]⟩) =
      .ok ⟨[['H']], [(mkRat 1 2, mkRat 0 1, mkRat (-3) 4)]⟩ := by decide

/-- The angstrom-to-Bohr conversion factor `1.88973` applied by the notebook
before calling `qml.qchem.molecular_hamiltonian`. -/
def bohrPerAngstrom : ℚ :=
  mkRat 188973 100000

/-- One coordinate triple scaled from angstroms to Bohr, as in the notebook
expression `np.array(molecule.coordinates, dtype=np.float64) * 1.88973`. -/
def scaleToBohr (p : ℚ × ℚ × ℚ) : ℚ × ℚ × ℚ :=
  (bohrPerAngstrom * p.1, bohrPerAngstrom * p.2.1, bohrPerAngstrom * p.2.2)

/-- The coordinate argument the notebook passes to the external
Hamiltonian-construction capability: the parsed coordinates, elementwise
multiplied by `1.88973`. -/
def hamiltonianCoordinates (m : Molecule) : List (ℚ × ℚ × ℚ) :=
  m.coordinates.map scaleToBohr

/-- The symbol argument the notebook passes to the external
Hamiltonian-construction capability: the parsed symbols, unchanged. -/
def hamiltonianSymbols (m : Molecule) : List (List Char) :=
  m.symbols

/-- The convergence tolerance of the notebook, `convergence_tolerance = 1e-06`. -/
def convergenceTolerance : ℚ :=
  mkRat 1 1000000

/-- The iteration bound of the notebook, `max_iterations = 200`. -/
def maxIterations : ℕ :=
  200

/-- The notebook's optimization loop, embedded with the external
`optimizer.step_and_cost` and the circuit cost function abstracted as `step`
and `cost`.  One fuel unit per loop iteration; each executed iteration draws
`(theta, prev_energy) := step theta`, computes `energy := cost theta`,
appends `energy` to the trace, and stops early when
`|energy - prev_energy| <= convergence_tolerance`.  Returns the final
`(theta, energy, energies)`. -/
def vqeAux (step : ℚ → ℚ × ℚ) (cost : ℚ → ℚ) :
    ℕ → ℚ → ℚ → List ℚ → ℚ × ℚ × List ℚ
  | 0, theta, energy, energies => (theta, energy, energies)
  | fuel + 1, theta, _, energies =>
    let p := step theta
    let e := cost p.1
    if |e - p.2| ≤ convergenceTolerance then (p.1, e, energies ++ [e])
    else vqeAux step cost fuel p.1 e (energies ++ [e])

/-- The notebook's loop run from the start: `max_iterations` fuel, initial
parameter `theta0`, initial energy variable `energy0`, empty trace. -/
def vqeRun (step : ℚ → ℚ × ℚ) (cost : ℚ → ℚ) (theta0 energy0 : ℚ) :
    ℚ × ℚ × List ℚ :=
  vqeAux step cost maxIterations theta0 energy0 []

/-- The recorded energy trace (the notebook's `energies` list). -/
def vqeEnergies (step : ℚ → ℚ × ℚ) (cost : ℚ → ℚ) (theta0 energy0 : ℚ) : List ℚ :=
  (vqeRun step cost theta0 energy0).2.2

/-- The notebook's final scalar output, `output = float(energy)`: the value
of the loop variable `energy` after the loop. -/
def vqeOutput (step : ℚ → ℚ × ℚ) (cost : ℚ → ℚ) (theta0 energy0 : ℚ) : ℚ :=
  (vqeRun step cost theta0 energy0).2.1

/-- A character is a decimal digit character. -/
def IsDigitCh (c : Char) : Prop :=
  '0' ≤ c ∧ c ≤ '9'

instance (c : Char) : Decidable (IsDigitCh c) :=
  inferInstanceAs (Decidable (_ ∧ _))

lemma IsDigitCh.ne_space {c : Char} (h : IsDigitCh c) : c ≠ ' ' := by
  rintro rfl; exact absurd h (by decide)

lemma IsDigitCh.ne_newline {c : Char} (h : IsDigitCh c) : c ≠ '\n' := by
  rintro rfl; exact absurd h (by decide)

lemma IsDigitCh.ne_dot {c : Char} (h : IsDigitCh c) : c ≠ '.' := by
  rintro rfl; exact absurd h (by decide)

lemma IsDigitCh.ne_dash {c : Char} (h : IsDigitCh c) : c ≠ '-' := by
  rintro rfl; exact absurd h (by decide)

lemma IsDigitCh.ne_plus {c : Char} (h : IsDigitCh c) : c ≠ '+' := by
  rintro rfl; exact absurd h (by decide)

lemma splitOnChar_ne_nil (c : Char) : ∀ l : List Char, splitOnChar c l ≠ []
  | [] => by simp [splitOnChar]
  | x :: xs => by
    have h := splitOnChar_ne_nil c xs
    rcases hs : splitOnChar c xs with _ | ⟨hd, tl⟩
    · exact absurd hs h
    · simp only [splitOnChar, hs]
      split <;> simp

lemma splitOnChar_eq_single {c : Char} {l : List Char} (h : ∀ x ∈ l, x ≠ c) :
    splitOnChar c l = [l] := by
  induction l with
  | nil => rfl
  | cons x xs ih =>
    have hx : x ≠ c := h x (by simp)
    have hxs := ih (fun y hy => h y (by simp [hy]))
    simp [splitOnChar, hxs, hx]

lemma splitOnChar_append {c : Char} {l₁ : List Char} (h : ∀ x ∈ l₁, x ≠ c)
    (l₂ : List Char) :
    splitOnChar c (l₁ ++ c :: l₂) = l₁ :: splitOnChar c l₂ := by
  induction l₁ with
  | nil =>
    rcases hs : splitOnChar c l₂ with _ | ⟨hd, tl⟩
    · exact absurd hs (splitOnChar_ne_nil c l₂)
    · simp [splitOnChar, hs]
  | cons x xs ih =>
    have hx : x ≠ c := h x (by simp)
    have hxs := ih (fun y hy => h y (by simp [hy]))
    simp [splitOnChar, hxs, hx]

lemma mem_joinSep {c : Char} :
    ∀ {ps : List (List Char)} {x : Char},
      x ∈ joinSep c ps → x = c ∨ ∃ p ∈ ps, x ∈ p := by
  intro ps
  induction ps with
  | nil => intro x hx; simp [joinSep] at hx
  | cons l ls ih =>
    intro x hx
    cases ls with
    | nil => exact Or.inr ⟨l, by simp, by simpa [joinSep] using hx⟩
    | cons l' ls' =>
      simp only [joinSep, List.mem_append, List.mem_cons] at hx
      rcases hx with h | h | h
      · exact Or.inr ⟨l, by simp, h⟩
      · exact Or.inl h
      · rcases ih h with h' | ⟨p, hp, hxp⟩
        · exact Or.inl h'
        · exact Or.inr ⟨p, by simp [hp], hxp⟩

lemma splitOnChar_joinSep {c : Char} :
    ∀ {ps : List (List Char)}, ps ≠ [] →
      (∀ p ∈ ps, ∀ x ∈ p, x ≠ c) → splitOnChar c (joinSep c ps) = ps := by
  intro ps
  induction ps with
  | nil => intro h; exact absurd rfl h
  | cons l ls ih =>
    intro _ h
    cases ls with
    | nil => simpa [joinSep] using splitOnChar_eq_single (h l (by simp))
    | cons l' ls' =>
      have h1 := splitOnChar_append (h l (by simp)) (joinSep c (l' :: ls'))
      simp only [joinSep] at h1 ⊢
      rw [h1, ih (by simp) (fun p hp => h p (by simp [hp]))]

/-- The numeric value of a little-endian digit list. -/
def valLE : List ℕ → ℕ
  | [] => 0
  | d :: ds => d + 10 * valLE ds

lemma foldl_reverse_digits (ds : List ℕ) (a : ℕ) :
    List.foldl (fun a d => 10 * a + d) a ds.reverse =
      a * 10 ^ ds.length + valLE ds := by
  induction ds generalizing a with
  | nil => simp [valLE]
  | cons d ds ih =>
    simp only [List.reverse_cons, List.foldl_append, List.foldl_cons,
      List.foldl_nil, ih, valLE, List.length_cons]
    ring

lemma natToRevDigits_val : ∀ fuel n : ℕ, n ≤ fuel →
    valLE (natToRevDigits fuel n) = n := by
  intro fuel
  induction fuel with
  | zero =>
    intro n h
    have : n = 0 := Nat.le_zero.mp h
    subst this
    rfl
  | succ fuel ih =>
    intro n h
    by_cases h0 : n = 0
    · subst h0; simp [natToRevDigits, valLE]
    · have hlt : n / 10 < n := Nat.div_lt_self (Nat.pos_of_ne_zero h0) (by norm_num)
      have hd : n / 10 ≤ fuel := by omega
      simp [natToRevDigits, h0, valLE, ih _ hd, Nat.mod_add_div]

lemma natToRevDigits_lt : ∀ fuel n d : ℕ, d ∈ natToRevDigits fuel n → d < 10 := by
  intro fuel
  induction fuel with
  | zero => intro n d hd; simp [natToRevDigits] at hd
  | succ fuel ih =>
    intro n d hd
    by_cases h0 : n = 0
    · subst h0; simp [natToRevDigits] at hd
    · simp only [natToRevDigits, if_neg h0, List.mem_cons] at hd
      rcases hd with rfl | hd
      · exact Nat.mod_lt _ (by norm_num)
      · exact ih _ _ hd

lemma natToRevDigits_length : ∀ fuel n e : ℕ, n ≤ fuel → n < 10 ^ e →
    (natToRevDigits fuel n).length ≤ e := by
  intro fuel
  induction fuel with
  | zero =>
    intro n e h _
    have : n = 0 := Nat.le_zero.mp h
    subst this
    simp [natToRevDigits]
  | succ fuel ih =>
    intro n e h he
    by_cases h0 : n = 0
    · subst h0; simp [natToRevDigits]
    · cases e with
      | zero =>
        simp only [pow_zero, Nat.lt_one_iff] at he
        exact absurd he h0
      | succ e =>
        have hlt : n / 10 < n := Nat.div_lt_self (Nat.pos_of_ne_zero h0) (by norm_num)
        have hd : n / 10 ≤ fuel := by omega
        have hde : n / 10 < 10 ^ e := by
          rw [Nat.div_lt_iff_lt_mul (by norm_num : 0 < 10)]
          calc n < 10 ^ (e + 1) := he
            _ = 10 ^ e * 10 := by ring
        simpa [natToRevDigits, h0] using ih _ _ hd hde

lemma natToRevDigits_ne_nil {fuel n : ℕ} (h0 : 0 < n) (h : n ≤ fuel) :
    natToRevDigits fuel n ≠ [] := by
  cases fuel with
  | zero => omega
  | succ fuel => simp [natToRevDigits, Nat.pos_iff_ne_zero.mp h0]

lemma digit?_digitChar {d : ℕ} (h : d < 10) : digit? (digitChar d) = some d := by
  interval_cases d <;> decide

lemma isDigitCh_digitChar {d : ℕ} (h : d < 10) : IsDigitCh (digitChar d) := by
  interval_cases d <;> decide

lemma readDigits_map {l : List ℕ} (h : ∀ d ∈ l, d < 10) :
    readDigits (l.map digitChar) = some l := by
  induction l with
  | nil => rfl
  | cons d ds ih =>
    have hd := digit?_digitChar (h d (by simp))
    have hds := ih (fun x hx => h x (by simp [hx]))
    simp [readDigits, hd, hds]

lemma readDigits_append {l₁ l₂ : List Char} {d₁ d₂ : List ℕ}
    (h₁ : readDigits l₁ = some d₁) (h₂ : readDigits l₂ = some d₂) :
    readDigits (l₁ ++ l₂) = some (d₁ ++ d₂) := by
  induction l₁ generalizing d₁ with
  | nil =>
    simp only [readDigits] at h₁
    cases h₁
    simpa using h₂
  | cons c cs ih =>
    rcases hc : digit? c with _ | d
    · simp [readDigits, hc] at h₁
    · rcases hcs : readDigits cs with _ | ds
      · simp [readDigits, hc, hcs] at h₁
      · simp only [readDigits, hc, hcs] at h₁
        cases h₁
        simp [readDigits, hc, ih hcs]

lemma readDigits_replicate_zero (k : ℕ) :
    readDigits (List.replicate k '0') = some (List.replicate k 0) := by
  induction k with
  | zero => rfl
  | succ k ih =>
    simp [List.replicate_succ, readDigits, ih, (by decide : digit? '0' = some 0)]

lemma foldl_replicate_zero : ∀ (k a : ℕ),
    List.foldl (fun a d => 10 * a + d) a (List.replicate k 0) = a * 10 ^ k := by
  intro k
  induction k with
  | zero => intro a; simp
  | succ k ih =>
    intro a
    rw [List.replicate_succ, List.foldl_cons, ih]
    ring

lemma parseNat?_serializeNat (n : ℕ) : parseNat? (serializeNat n) = some n := by
  by_cases h0 : n = 0
  · subst h0; decide
  · have hne := natToRevDigits_ne_nil (Nat.pos_of_ne_zero h0) (le_refl n)
    have hmem : ∀ d ∈ (natToRevDigits n n).reverse, d < 10 := by
      intro d hd
      exact natToRevDigits_lt n n d (List.mem_reverse.mp hd)
    have hnil : (natToRevDigits n n).reverse.map digitChar ≠ [] := by
      simp [hne]
    rw [serializeNat, if_neg h0, parseNat?, if_neg hnil, readDigits_map hmem]
    simp only [Option.map_some']
    rw [foldl_reverse_digits]
    simp [natToRevDigits_val n n (le_refl n)]

lemma serializeNat_digits {n : ℕ} : ∀ c ∈ serializeNat n, IsDigitCh c := by
  intro c hc
  by_cases h0 : n = 0
  · subst h0
    have hc0 : c = '0' := by simpa [serializeNat] using hc
    subst hc0; decide
  · simp only [serializeNat, if_neg h0, List.mem_map] at hc
    obtain ⟨d, hd, rfl⟩ := hc
    exact isDigitCh_digitChar (natToRevDigits_lt n n d (List.mem_reverse.mp hd))

lemma serializeNat_ne_nil (n : ℕ) : serializeNat n ≠ [] := by
  by_cases h0 : n = 0
  · subst h0; decide
  · simpa [serializeNat, h0] using natToRevDigits_ne_nil (Nat.pos_of_ne_zero h0) (le_refl n)

lemma padFrac_digits {e r : ℕ} : ∀ c ∈ padFrac e r, IsDigitCh c := by
  intro c hc
  simp only [padFrac, List.mem_append, List.mem_replicate] at hc
  rcases hc with ⟨_, rfl⟩ | hc
  · decide
  · by_cases h0 : r = 0
    · simp [h0] at hc
    · simp only [if_neg h0, List.mem_map] at hc
      obtain ⟨d, hd, rfl⟩ := hc
      exact isDigitCh_digitChar (natToRevDigits_lt r r d (List.mem_reverse.mp hd))

lemma padFrac_length {e r : ℕ} (hr : r < 10 ^ e) : (padFrac e r).length = e := by
  by_cases h0 : r = 0
  · simp [padFrac, h0]
  · have hlen : (natToRevDigits r r).length ≤ e :=
      natToRevDigits_length r r e (le_refl r) hr
    simp only [padFrac, if_neg h0, List.length_append, List.length_replicate,
      List.length_map, List.length_reverse]
    omega

lemma parseNat?_padFrac {e r : ℕ} (he : 1 ≤ e) (hr : r < 10 ^ e) :
    parseNat? (padFrac e r) = some r := by
  have hlen := padFrac_length hr
  have hne : padFrac e r ≠ [] := by
    intro h
    rw [h] at hlen
    simp at hlen
    omega
  by_cases h0 : r = 0
  · subst h0
    rw [parseNat?, if_neg hne]
    have : padFrac e 0 = List.replicate e '0' := by simp [padFrac]
    rw [this, readDigits_replicate_zero]
    simp [foldl_replicate_zero]
  · have hmem : ∀ d ∈ (natToRevDigits r r).reverse, d < 10 := fun d hd =>
      natToRevDigits_lt r r d (List.mem_reverse.mp hd)
    have hds := readDigits_map hmem
    have hrep := readDigits_replicate_zero (e - ((natToRevDigits r r).reverse.map digitChar).length)
    rw [parseNat?, if_neg hne]
    have hpf : padFrac e r =
        List.replicate (e - ((natToRevDigits r r).reverse.map digitChar).length) '0' ++
          (natToRevDigits r r).reverse.map digitChar := by
      simp [padFrac, h0]
    rw [hpf, readDigits_append hrep hds]
    simp only [Option.map_some']
    rw [List.foldl_append, foldl_replicate_zero, foldl_reverse_digits]
    simp [natToRevDigits_val r r (le_refl r)]

lemma serializeQ_chars {q : ℚ} : ∀ c ∈ serializeQ q, c = '-' ∨ IsDigitCh c ∨ c = '.' := by
  intro c hc
  simp only [serializeQ, List.mem_append, List.mem_cons] at hc
  rcases hc with (hc | hc) | hc
  · split at hc
    · simp only [List.mem_singleton] at hc
      exact Or.inl hc
    · simp at hc
  · exact Or.inr (Or.inl (serializeNat_digits c hc))
  · rcases hc with rfl | hc
    · exact Or.inr (Or.inr rfl)
    · exact Or.inr (Or.inl (padFrac_digits c hc))

lemma serializeQ_ne_space {q : ℚ} : ∀ c ∈ serializeQ q, c ≠ ' ' := by
  intro c hc
  rcases serializeQ_chars c hc with rfl | h | rfl
  · decide
  · exact h.ne_space
  · decide

lemma serializeQ_ne_newline {q : ℚ} : ∀ c ∈ serializeQ q, c ≠ '\n' := by
  intro c hc
  rcases serializeQ_chars c hc with rfl | h | rfl
  · decide
  · exact h.ne_newline
  · decide

lemma serializeQ_ne_nil (q : ℚ) : serializeQ q ≠ [] := by
  simp only [serializeQ]
  intro h
  rcases List.append_eq_nil.mp h with ⟨_, h2⟩
  exact List.cons_ne_nil _ _ h2

lemma dvd_ten_pow : ∀ d : ℕ, 0 < d → ∀ k, d ∣ 10 ^ k → d ∣ 10 ^ d := by
  intro d
  induction d using Nat.strong_induction_on with
  | _ d ih =>
    intro hd k hk
    rcases eq_or_ne d 1 with rfl | hd1
    · exact one_dvd _
    · obtain ⟨p, hp, hpd⟩ := Nat.exists_prime_and_dvd hd1
      have hp10 : p ∣ 10 := hp.dvd_of_dvd_pow (hpd.trans hk)
      obtain ⟨m, rfl⟩ := hpd
      have hm0 : 0 < m := by
        rcases Nat.eq_zero_or_pos m with rfl | h
        · simp at hd
        · exact h
      have hp2 : 2 ≤ p := hp.two_le
      have hmlt : m < p * m := by
        have h2m : 2 * m ≤ p * m := Nat.mul_le_mul_right m hp2
        omega
      have hmk : m ∣ 10 ^ k := (Dvd.intro_left p rfl).trans hk
      have hm : m ∣ 10 ^ m := ih m hmlt hm0 k hmk
      have hm' : m ∣ 10 ^ (p * m - 1) := hm.trans (pow_dvd_pow 10 (by omega))
      have hmul : p * m ∣ 10 * 10 ^ (p * m - 1) := mul_dvd_mul hp10 hm'
      have hrw : 10 * 10 ^ (p * m - 1) = 10 ^ (p * m) := by
        rw [← pow_succ']
        congr 1
        omega
      rwa [hrw] at hmul

/-- A rational number with a finite decimal representation (every value the
coordinate parser can produce is one). -/
def IsFiniteDecimal (q : ℚ) : Prop :=
  ∃ (a : ℤ) (k : ℕ), q = mkRat a (10 ^ k)

lemma den_dvd_of_finiteDecimal {q : ℚ} (h : IsFiniteDecimal q) :
    q.den ∣ 10 ^ q.den := by
  obtain ⟨a, k, rfl⟩ := h
  have h1 : ((mkRat a (10 ^ k)).den : ℤ) ∣ (((10 : ℕ) ^ k : ℕ) : ℤ) := by
    rw [Rat.mkRat_eq_divInt]
    have := Rat.den_dvd a (((10 : ℕ) ^ k : ℕ) : ℤ)
    simpa using this
  have h2 : (mkRat a (10 ^ k)).den ∣ 10 ^ k := by
    exact_mod_cast h1
  exact dvd_ten_pow _ (mkRat a (10 ^ k)).pos k h2

lemma parseUFloat_serialized (a r e : ℕ) (he : 1 ≤ e) (hr : r < 10 ^ e) :
    parseUFloat (serializeNat a ++ '.' :: padFrac e r) =
      some (mkRat ((a : ℤ) * 10 ^ e + (r : ℤ)) (10 ^ e)) := by
  have hsp : splitOnChar '.' (serializeNat a ++ '.' :: padFrac e r) =
      [serializeNat a, padFrac e r] := by
    rw [splitOnChar_append (fun c hc => (serializeNat_digits c hc).ne_dot) _,
      splitOnChar_eq_single (fun c hc => (padFrac_digits c hc).ne_dot)]
  unfold parseUFloat
  rw [hsp]
  simp only [parseNat?_serializeNat, parseNat?_padFrac he hr, padFrac_length hr]

lemma parseFloat_serializeQ {q : ℚ} (h : q.den ∣ 10 ^ q.den) :
    parseFloat (serializeQ q) = some q := by
  have he : 1 ≤ q.den := q.pos
  have hdz : (q.den : ℤ) ∣ (10 : ℤ) ^ q.den := by
    have h1 : ((q.den : ℕ) : ℤ) ∣ ((10 ^ q.den : ℕ) : ℤ) := Int.natCast_dvd_natCast.mpr h
    simpa using h1
  have hdvd : (q.den : ℤ) ∣ q.num * (10 : ℤ) ^ q.den := hdz.mul_left q.num
  set m := q.num * (10 : ℤ) ^ q.den / (q.den : ℤ) with hm_def
  have hm : m * (q.den : ℤ) = q.num * (10 : ℤ) ^ q.den := Int.ediv_mul_cancel hdvd
  have hsplit : m.natAbs / 10 ^ q.den * 10 ^ q.den + m.natAbs % 10 ^ q.den = m.natAbs :=
    Nat.div_add_mod' _ _
  have hr : m.natAbs % 10 ^ q.den < 10 ^ q.den :=
    Nat.mod_lt _ (pow_pos (by norm_num) q.den)
  have hval := parseUFloat_serialized (m.natAbs / 10 ^ q.den) (m.natAbs % 10 ^ q.den)
    q.den he hr
  have hx : ((m.natAbs / 10 ^ q.den : ℕ) : ℤ) * 10 ^ q.den +
      ((m.natAbs % 10 ^ q.den : ℕ) : ℤ) = (m.natAbs : ℤ) := by
    exact_mod_cast congrArg (fun n : ℕ => (n : ℤ)) hsplit
  have hqeq : ∀ x : ℤ, x = m → mkRat x (10 ^ q.den) = q := by
    intro x hxm
    subst hxm
    have h2 : mkRat m (10 ^ q.den) = mkRat q.num q.den := by
      rw [Rat.mkRat_eq_iff (pow_ne_zero q.den (by norm_num)) q.den_nz]
      push_cast
      exact hm
    rw [h2, Rat.mkRat_self]
  by_cases hneg : m < 0
  · have hser : serializeQ q =
        '-' :: (serializeNat (m.natAbs / 10 ^ q.den) ++ '.' ::
          padFrac q.den (m.natAbs % 10 ^ q.den)) := by
      show (if m < 0 then ['-'] else []) ++ _ ++ _ = _
      rw [if_pos hneg]
      rfl
    rw [hser]
    simp only [parseFloat, if_true]
    rw [hval]
    simp only [Option.map_some']
    rw [Rat.neg_mkRat]
    refine congrArg some (hqeq _ ?_)
    rw [hx, Int.ofNat_natAbs_of_nonpos (le_of_lt hneg)]
    exact neg_neg m
  · push_neg at hneg
    have hser : serializeQ q =
        serializeNat (m.natAbs / 10 ^ q.den) ++ '.' ::
          padFrac q.den (m.natAbs % 10 ^ q.den) := by
      show (if m < 0 then ['-'] else []) ++ _ ++ _ = _
      rw [if_neg (not_lt.mpr hneg)]
      rfl
    rcases hsn : serializeNat (m.natAbs / 10 ^ q.den) with _ | ⟨c, cs⟩
    · exact absurd hsn (serializeNat_ne_nil _)
    · have hcdig : IsDigitCh c :=
        serializeNat_digits c (by rw [hsn]; exact List.mem_cons_self c cs)
      rw [hser, hsn, List.cons_append]
      simp only [parseFloat]
      rw [if_neg hcdig.ne_dash, if_neg hcdig.ne_plus, ← List.cons_append, ← hsn, hval]
      exact congrArg some (hqeq _ (by rw [hx, Int.natAbs_of_nonneg hneg]))

lemma tokenSplit_single {l : List Char} (hne : l ≠ []) (h : ∀ x ∈ l, x ≠ ' ') :
    tokenSplit l = [l] := by
  rw [tokenSplit, splitOnChar_eq_single h]
  simp [hne]

lemma tokenSplit_joinSep {ps : List (List Char)} (hne : ps ≠ [])
    (hp : ∀ p ∈ ps, p ≠ []) (h : ∀ p ∈ ps, ∀ x ∈ p, x ≠ ' ') :
    tokenSplit (joinSep ' ' ps) = ps := by
  rw [tokenSplit, splitOnChar_joinSep hne h]
  exact List.filter_eq_self.mpr (fun p hmem => by simp [hp p hmem])

lemma mapMExcept_ok_length {α β ε : Type} {f : α → Except ε β} :
    ∀ {xs : List α} {ys : List β}, mapMExcept f xs = .ok ys → ys.length = xs.length := by
  intro xs
  induction xs with
  | nil =>
    intro ys h
    simp only [mapMExcept] at h
    cases h
    rfl
  | cons x xs ih =>
    intro ys h
    simp only [mapMExcept] at h
    rcases hx : f x with e | b <;> rw [hx] at h
    · cases h
    · rcases hxs : mapMExcept f xs with e | bs <;> rw [hxs] at h
      · cases h
      · cases h
        simp [ih hxs]

lemma mapMExcept_ok_get? {α β ε : Type} {f : α → Except ε β} :
    ∀ {xs : List α} {ys : List β}, mapMExcept f xs = .ok ys →
      ∀ (i : ℕ) (x : α), xs.get? i = some x → ∃ y, ys.get? i = some y ∧ f x = .ok y := by
  intro xs
  induction xs with
  | nil =>
    intro ys h i x hx
    simp at hx
  | cons x xs ih =>
    intro ys h i z hz
    simp only [mapMExcept] at h
    rcases hx : f x with e | b <;> rw [hx] at h
    · cases h
    · rcases hxs : mapMExcept f xs with e | bs <;> rw [hxs] at h
      · cases h
      · cases h
        cases i with
        | zero =>
          rw [List.get?_cons_zero] at hz
          cases hz
          exact ⟨b, rfl, hx⟩
        | succ i =>
          rw [List.get?_cons_succ] at hz
          obtain ⟨y, hy, hfy⟩ := ih hxs i z hz
          exact ⟨y, by simpa using hy, hfy⟩

lemma mapMExcept_ok_of_mem {α β ε : Type} {f : α → Except ε β} :
    ∀ {xs : List α} {ys : List β}, mapMExcept f xs = .ok ys →
      ∀ x ∈ xs, ∃ y, f x = .ok y := by
  intro xs
  induction xs with
  | nil =>
    intro ys h x hx
    simp at hx
  | cons x xs ih =>
    intro ys h z hz
    simp only [mapMExcept] at h
    rcases hx : f x with e | b <;> rw [hx] at h
    · cases h
    · rcases hxs : mapMExcept f xs with e | bs <;> rw [hxs] at h
      · cases h
      · rcases List.mem_cons.mp hz with rfl | hz
        · exact ⟨b, hx⟩
        · exact ih hxs z hz

lemma except_error_of_not_ok {ε α : Type} {r : Except ε α} (h : ∀ a, r ≠ .ok a) :
    ∃ e, r = .error e := by
  cases r with
  | error e => exact ⟨e, rfl⟩
  | ok a => exact absurd rfl (h a)

lemma parseCore_ok_elim {s : List Char} {m : Molecule} (h : parseCore s = .ok m) :
    s ≠ [] ∧ declaredCount s = some ((atomLinesOf s).length) ∧
      2 ≤ (lineSplit s).length ∧
      ∃ ps, mapMExcept parseAtomLine (atomLinesOf s) = .ok ps ∧
        m.symbols = ps.map Prod.fst ∧ m.coordinates = ps.map Prod.snd := by
  simp only [parseCore] at h
  split at h
  · cases h
  · rename_i h0
    split at h
    · cases h
    · rename_i n hdc
      split at h
      · cases h
      · rename_i h2
        split at h
        · cases h
        · rename_i h3
          split at h
          · cases h
          · rename_i h4
            split at h
            · cases h
            · rename_i ps hmm
              cases h
              refine ⟨h0, ?_, by omega, ps, hmm, rfl, rfl⟩
              rw [hdc]
              congr 1
              omega

lemma tokenSplit_ne_nil_mem {l : List Char} : ∀ t ∈ tokenSplit l, t ≠ [] := by
  intro t ht
  have h := List.of_mem_filter ht
  simpa using h

lemma parseAtomLine_ok_elim {l : List Char} {y : List Char × (ℚ × ℚ × ℚ)}
    (h : parseAtomLine l = .ok y) :
    ∃ tx ty tz rest, tokenSplit l = y.1 :: tx :: ty :: tz :: rest ∧
      parseFloat tx = some y.2.1 ∧ parseFloat ty = some y.2.2.1 ∧
      parseFloat tz = some y.2.2.2 := by
  simp only [parseAtomLine] at h
  split at h
  · rename_i sym tx ty tz rest ht
    split at h
    · rename_i x yv z hx hy hz
      cases h
      exact ⟨tx, ty, tz, rest, ht, hx, hy, hz⟩
    · cases h
  · cases h

lemma mem_zipWith {α β γ : Type} {f : α → β → γ} :
    ∀ {as : List α} {bs : List β} {c : γ},
      c ∈ List.zipWith f as bs → ∃ a b, a ∈ as ∧ b ∈ bs ∧ c = f a b := by
  intro as
  induction as with
  | nil => intro bs c hc; simp at hc
  | cons a as ih =>
    intro bs c hc
    cases bs with
    | nil => simp at hc
    | cons b bs =>
      rcases List.mem_cons.mp hc with rfl | hc
      · exact ⟨a, b, by simp, by simp, rfl⟩
      · obtain ⟨a', b', ha, hb, rfl⟩ := ih hc
        exact ⟨a', b', by simp [ha], by simp [hb], rfl⟩

lemma serializeAtomLine_tokens {sym : List Char} (p : ℚ × ℚ × ℚ)
    (hne : sym ≠ []) (hsp : ∀ c ∈ sym, c ≠ ' ') :
    tokenSplit (serializeAtomLine sym p) =
      [sym, serializeQ p.1, serializeQ p.2.1, serializeQ p.2.2] := by
  apply tokenSplit_joinSep (by simp)
  · intro piece hp
    simp only [List.mem_cons, List.not_mem_nil, or_false] at hp
    rcases hp with rfl | rfl | rfl | rfl
    · exact hne
    · exact serializeQ_ne_nil _
    · exact serializeQ_ne_nil _
    · exact serializeQ_ne_nil _
  · intro piece hp
    simp only [List.mem_cons, List.not_mem_nil, or_false] at hp
    rcases hp with rfl | rfl | rfl | rfl
    · exact hsp
    · exact serializeQ_ne_space
    · exact serializeQ_ne_space
    · exact serializeQ_ne_space

lemma serializeAtomLine_no_newline {sym : List Char} (p : ℚ × ℚ × ℚ)
    (hnl : ∀ c ∈ sym, c ≠ '\n') :
    ∀ c ∈ serializeAtomLine sym p, c ≠ '\n' := by
  intro c hc
  rcases mem_joinSep hc with rfl | ⟨piece, hp, hcp⟩
  · decide
  · simp only [List.mem_cons, List.not_mem_nil, or_false] at hp
    rcases hp with rfl | rfl | rfl | rfl
    · exact hnl c hcp
    · exact serializeQ_ne_newline c hcp
    · exact serializeQ_ne_newline c hcp
    · exact serializeQ_ne_newline c hcp

lemma parseAtomLine_serializeAtomLine {sym : List Char} {p : ℚ × ℚ × ℚ}
    (hne : sym ≠ []) (hsp : ∀ c ∈ sym, c ≠ ' ')
    (h1 : p.1.den ∣ 10 ^ p.1.den) (h2 : p.2.1.den ∣ 10 ^ p.2.1.den)
    (h3 : p.2.2.den ∣ 10 ^ p.2.2.den) :
    parseAtomLine (serializeAtomLine sym p) = .ok (sym, p) := by
  simp only [parseAtomLine, serializeAtomLine_tokens p hne hsp]
  rw [parseFloat_serializeQ h1, parseFloat_serializeQ h2, parseFloat_serializeQ h3]

lemma mapMExcept_zipWith_serialize :
    ∀ (syms : List (List Char)) (coords : List (ℚ × ℚ × ℚ)),
      syms.length = coords.length →
      (∀ sym ∈ syms, sym ≠ [] ∧ ∀ c ∈ sym, c ≠ ' ') →
      (∀ p ∈ coords, p.1.den ∣ 10 ^ p.1.den ∧ p.2.1.den ∣ 10 ^ p.2.1.den ∧
        p.2.2.den ∣ 10 ^ p.2.2.den) →
      mapMExcept parseAtomLine (List.zipWith serializeAtomLine syms coords) =
        .ok (List.zip syms coords) := by
  intro syms
  induction syms with
  | nil => intro coords _ _ _; simp [mapMExcept]
  | cons sym syms ih =>
    intro coords hlen hsym hfd
    cases coords with
    | nil => simp at hlen
    | cons p coords =>
      obtain ⟨hne, hsp⟩ := hsym sym (by simp)
      obtain ⟨h1, h2, h3⟩ := hfd p (by simp)
      simp only [List.zipWith_cons_cons, mapMExcept,
        parseAtomLine_serializeAtomLine hne hsp h1 h2 h3]
      rw [ih coords (by simpa using hlen) (fun s hs => hsym s (by simp [hs]))
        (fun x hx => hfd x (by simp [hx]))]
      rfl

lemma serialize_lines (m : Molecule)
    (hnl : ∀ sym ∈ m.symbols, ∀ c ∈ sym, c ≠ '\n') :
    lineSplit (serialize m) =
      serializeNat m.symbols.length :: commentChars ::
        List.zipWith serializeAtomLine m.symbols m.coordinates := by
  unfold lineSplit serialize
  apply splitOnChar_joinSep (by simp)
  intro piece hp
  simp only [List.mem_cons] at hp
  rcases hp with rfl | rfl | hp
  · exact fun c hc => (serializeNat_digits c hc).ne_newline
  · intro c hc
    have hc3 : c = 'x' ∨ c = 'y' ∨ c = 'z' := by simpa [commentChars] using hc
    rcases hc3 with rfl | rfl | rfl <;> decide
  · obtain ⟨sym, p, hs, _, rfl⟩ := mem_zipWith hp
    exact serializeAtomLine_no_newline p (hnl sym hs)

lemma parseCore_serialize (m : Molecule)
    (hlen : m.symbols.length = m.coordinates.length)
    (hsym : ∀ sym ∈ m.symbols, sym ≠ [] ∧ ∀ c ∈ sym, c ≠ ' ' ∧ c ≠ '\n')
    (hfd : ∀ p ∈ m.coordinates,
      IsFiniteDecimal p.1 ∧ IsFiniteDecimal p.2.1 ∧ IsFiniteDecimal p.2.2) :
    parseCore (serialize m) = .ok m := by
  have hnl : ∀ sym ∈ m.symbols, ∀ c ∈ sym, c ≠ '\n' :=
    fun sym hs c hc => ((hsym sym hs).2 c hc).2
  have hlines := serialize_lines m hnl
  have hs0 : serialize m ≠ [] := by
    intro h
    rw [h] at hlines
    simp [lineSplit, splitOnChar] at hlines
  have htok : ∀ l ∈ List.zipWith serializeAtomLine m.symbols m.coordinates,
      tokenSplit l ≠ [] := by
    intro l hl
    obtain ⟨sym, p, hs, _, rfl⟩ := mem_zipWith hl
    rw [serializeAtomLine_tokens p (hsym sym hs).1
      (fun c hc => ((hsym sym hs).2 c hc).1)]
    simp
  have hals : atomLinesOf (serialize m) =
      List.zipWith serializeAtomLine m.symbols m.coordinates := by
    simp only [atomLinesOf]
    rw [hlines]
    simp only [List.drop_succ_cons, List.drop_zero]
    exact List.filter_eq_self.mpr (fun l hl => by simpa using htok l hl)
  have hLlen : (List.zipWith serializeAtomLine m.symbols m.coordinates).length =
      m.symbols.length := by
    rw [List.length_zipWith, ← hlen, min_self]
  have hdc : declaredCount (serialize m) = some m.symbols.length := by
    simp only [declaredCount]
    rw [hlines]
    simp only [parseCount]
    rw [tokenSplit_single (serializeNat_ne_nil _)
      (fun c hc => (serializeNat_digits c hc).ne_space)]
    exact parseNat?_serializeNat _
  have hfd' : ∀ p ∈ m.coordinates, p.1.den ∣ 10 ^ p.1.den ∧
      p.2.1.den ∣ 10 ^ p.2.1.den ∧ p.2.2.den ∣ 10 ^ p.2.2.den := by
    intro p hp
    exact ⟨den_dvd_of_finiteDecimal (hfd p hp).1,
      den_dvd_of_finiteDecimal (hfd p hp).2.1,
      den_dvd_of_finiteDecimal (hfd p hp).2.2⟩
  have hmm := mapMExcept_zipWith_serialize m.symbols m.coordinates hlen
    (fun sym hs => ⟨(hsym sym hs).1, fun c hc => ((hsym sym hs).2 c hc).1⟩) hfd'
  have h2 : ¬((serializeNat m.symbols.length :: commentChars ::
      List.zipWith serializeAtomLine m.symbols m.coordinates).length < 2) := by
    simp only [List.length_cons]
    omega
  simp only [parseCore]
  rw [if_neg hs0, hdc]
  simp [hlines, hals, hLlen, hmm, h2, lt_self_iff_false,
    List.map_fst_zip _ _ (le_of_eq hlen), List.map_snd_zip _ _ (le_of_eq hlen.symm)]

lemma mapMExcept_ok_mem_res {α β ε : Type} {f : α → Except ε β} :
    ∀ {xs : List α} {ys : List β}, mapMExcept f xs = .ok ys →
      ∀ y ∈ ys, ∃ x ∈ xs, f x = .ok y := by
  intro xs
  induction xs with
  | nil =>
    intro ys h y hy
    simp only [mapMExcept] at h
    cases h
    simp at hy
  | cons x xs ih =>
    intro ys h y hy
    simp only [mapMExcept] at h
    rcases hx : f x with e | b <;> rw [hx] at h
    · cases h
    · rcases hxs : mapMExcept f xs with e | bs <;> rw [hxs] at h
      · cases h
      · cases h
        rcases List.mem_cons.mp hy with rfl | hy
        · exact ⟨x, by simp, hx⟩
        · obtain ⟨x', hx', hfx⟩ := ih hxs y hy
          exact ⟨x', by simp [hx'], hfx⟩

lemma vqeAux_length (step : ℚ → ℚ × ℚ) (cost : ℚ → ℚ) :
    ∀ (fuel : ℕ) (theta energy : ℚ) (es : List ℚ),
      (vqeAux step cost fuel theta energy es).2.2.length ≤ es.length + fuel ∧
      es.length ≤ (vqeAux step cost fuel theta energy es).2.2.length ∧
      (1 ≤ fuel → es.length + 1 ≤ (vqeAux step cost fuel theta energy es).2.2.length) := by
  intro fuel
  induction fuel with
  | zero =>
    intro theta energy es
    simp [vqeAux]
  | succ fuel ih =>
    intro theta energy es
    simp only [vqeAux]
    split
    · simp
    · have h := ih (step theta).1 (cost (step theta).1)
        (es ++ [cost (step theta).1])
      simp only [List.length_append, List.length_singleton] at h
      refine ⟨by omega, by omega, fun _ => by omega⟩

lemma vqeAux_getLast (step : ℚ → ℚ × ℚ) (cost : ℚ → ℚ) :
    ∀ (fuel : ℕ) (theta energy : ℚ) (es : List ℚ),
      (vqeAux step cost fuel theta energy es).2.2.getLast? =
          some (vqeAux step cost fuel theta energy es).2.1 ∨
        ((vqeAux step cost fuel theta energy es).2.2 = es ∧
          (vqeAux step cost fuel theta energy es).2.1 = energy) := by
  intro fuel
  induction fuel with
  | zero =>
    intro theta energy es
    exact Or.inr ⟨rfl, rfl⟩
  | succ fuel ih =>
    intro theta energy es
    simp only [vqeAux]
    split
    · exact Or.inl (by simp)
    · rcases ih (step theta).1 (cost (step theta).1)
        (es ++ [cost (step theta).1]) with h | ⟨h1, h2⟩
      · exact Or.inl h
      · refine Or.inl ?_
        rw [h1, h2]
        simp

lemma vqeAux_early_exit (step : ℚ → ℚ × ℚ) (cost : ℚ → ℚ) :
    ∀ (fuel : ℕ) (theta energy : ℚ) (es : List ℚ),
      (vqeAux step cost fuel theta energy es).2.2.length < es.length + fuel →
      ∃ t, (vqeAux step cost fuel theta energy es).2.1 = cost (step t).1 ∧
        |cost (step t).1 - (step t).2| ≤ convergenceTolerance := by
  intro fuel
  induction fuel with
  | zero =>
    intro theta energy es h
    simp [vqeAux] at h
  | succ fuel ih =>
    intro theta energy es h
    simp only [vqeAux] at h ⊢
    split at h
    · rename_i hc
      split
      · exact ⟨theta, rfl, hc⟩
      · rename_i hc'
        exact absurd hc hc'
    · rename_i hc
      split
      · rename_i hc'
        exact absurd hc' hc
      · apply ih (step theta).1 (cost (step theta).1) (es ++ [cost (step theta).1])
        simp only [List.length_append, List.length_singleton]
        omega

/-- C1: for every valid XYZ input string (one on which `Molecule.parse`
succeeds) whose line 1 declares atom count `n`, the returned `Molecule` has
`symbols` and `coordinates` of length exactly `n`, every element symbol
non-empty, and entry `i` of both sequences obtained by parsing the `i`-th atom
line of the input, so the two sequences are index-aligned in input appearance
order (each coordinate is a 3-tuple by the type of `Molecule.coordinates`). -/
theorem c1_parse_valid_lengths_alignment (s : String) (n : ℕ) (m : Molecule)
    (hn : declaredCount s.data = some n) (h : Molecule.parse s = .ok m) :
    m.symbols.length = n ∧ m.coordinates.length = n ∧
      (∀ sym ∈ m.symbols, sym ≠ []) ∧
      (∀ (i : ℕ) (sym : List Char) (p : ℚ × ℚ × ℚ),
        m.symbols.get? i = some sym → m.coordinates.get? i = some p →
        ∃ l, (atomLinesOf s.data).get? i = some l ∧
          parseAtomLine l = .ok (sym, p)) := by
  obtain ⟨hs0, hdc, hl2, ps, hmm, hsyms, hcoords⟩ := parseCore_ok_elim h
  rw [hdc] at hn
  have hn' : (atomLinesOf s.data).length = n := Option.some_injective _ hn
  have hlen := mapMExcept_ok_length hmm
  refine ⟨by rw [hsyms]; simp [hlen, hn'], by rw [hcoords]; simp [hlen, hn'], ?_, ?_⟩
  · intro sym hsm
    rw [hsyms] at hsm
    obtain ⟨pr, hpr, rfl⟩ := List.mem_map.mp hsm
    obtain ⟨l, _, hok⟩ := mapMExcept_ok_mem_res hmm pr hpr
    obtain ⟨tx, ty, tz, rest, ht, _, _, _⟩ := parseAtomLine_ok_elim hok
    exact tokenSplit_ne_nil_mem pr.1 (by rw [ht]; exact List.mem_cons_self _ _)
  · intro i sym p hsi hci
    rw [hsyms, List.get?_map] at hsi
    rw [hcoords, List.get?_map] at hci
    rcases hps : ps.get? i with _ | pr
    · rw [hps] at hsi
      cases hsi
    · rw [hps] at hsi hci
      simp only [Option.map_some'] at hsi hci
      cases hsi
      cases hci
      have hi : i < (atomLinesOf s.data).length := by
        obtain ⟨hilt, _⟩ := List.get?_eq_some.mp hps
        omega
      obtain ⟨l, hl⟩ : ∃ l, (atomLinesOf s.data).get? i = some l :=
        ⟨(atomLinesOf s.data).get ⟨i, hi⟩, List.get?_eq_get hi⟩
      obtain ⟨y, hy, hfy⟩ := mapMExcept_ok_get? hmm i l hl
      have hypr : y = pr := by
        rw [hps] at hy
        exact (Option.some_injective _ hy).symm
      subst hypr
      exact ⟨l, hl, hfy⟩

theorem c1_witness :
    declaredCount ("2\nSample H2 molecule\nH 0.3710 0.0 0.0\nH -0.3710 0.0 0.0" : String).data =
        some 2 ∧
      (⟨[['H'], ['H']], [(mkRat 371 1000, mkRat 0 1, mkRat 0 1),
        (mkRat (-371) 1000, mkRat 0 1, mkRat 0 1)]⟩ : Molecule).symbols.length = 2 :=
  ⟨by decide,
    (c1_parse_valid_lengths_alignment
      "2\nSample H2 molecule\nH 0.3710 0.0 0.0\nH -0.3710 0.0 0.0" 2
      ⟨[['H'], ['H']], [(mkRat 371 1000, mkRat 0 1, mkRat 0 1),
        (mkRat (-371) 1000, mkRat 0 1, mkRat 0 1)]⟩
      (by decide) (by decide)).1⟩

/-- C2: the empty input string is rejected with `FormatError.emptyInput`, and
every input whose line 1 declares atom count `n` while fewer than `n` atom
lines are present is rejected with a `FormatError`; in neither case is a
`Molecule` returned. -/
theorem c2_empty_or_missing_atoms_error :
    Molecule.parse "" = .error .emptyInput ∧
      ∀ (s : String) (n : ℕ), declaredCount s.data = some n →
        (atomLinesOf s.data).length < n →
        ∃ e, Molecule.parse s = .error e := by
  refine ⟨by decide, ?_⟩
  intro s n hn hlt
  apply except_error_of_not_ok
  intro m hok
  obtain ⟨_, hdc, _, _, _, _, _⟩ := parseCore_ok_elim hok
  rw [hdc] at hn
  have := Option.some_injective _ hn
  omega

theorem c2_witness :
    ∃ e, Molecule.parse "2\ncomment\nH 0.0 0.0 0.0" = .error e :=
  c2_empty_or_missing_atoms_error.2 "2\ncomment\nH 0.0 0.0 0.0" 2
    (by decide) (by decide)

/-- C3: an input containing an atom line (a non-empty line after the count and
comment lines) with fewer than 4 whitespace-separated tokens, or with a
coordinate token (token 1, 2 or 3) that does not parse as a number, is
rejected with a `FormatError`; the line is never coerced or skipped. -/
theorem c3_malformed_atom_line_error (s : String) (l : List Char)
    (hl : l ∈ atomLinesOf s.data)
    (hbad : (tokenSplit l).length < 4 ∨
      ∃ (i : ℕ) (t : List Char), 1 ≤ i ∧ i ≤ 3 ∧
        (tokenSplit l).get? i = some t ∧ parseFloat t = none) :
    ∃ e, Molecule.parse s = .error e := by
  apply except_error_of_not_ok
  intro m hok
  obtain ⟨_, _, _, ps, hmm, _, _⟩ := parseCore_ok_elim hok
  obtain ⟨y, hy⟩ := mapMExcept_ok_of_mem hmm l hl
  obtain ⟨tx, ty, tz, rest, ht, hx, hy', hz⟩ := parseAtomLine_ok_elim hy
  rcases hbad with hshort | ⟨i, t, h1, h3, hget, hnone⟩
  · rw [ht] at hshort
    simp only [List.length_cons] at hshort
    omega
  · rw [ht] at hget
    interval_cases i
    · simp only [List.get?_cons_succ, List.get?_cons_zero] at hget
      cases hget
      rw [hx] at hnone
      cases hnone
    · simp only [List.get?_cons_succ, List.get?_cons_zero] at hget
      cases hget
      rw [hy'] at hnone
      cases hnone
    · simp only [List.get?_cons_succ, List.get?_cons_zero] at hget
      cases hget
      rw [hz] at hnone
      cases hnone

theorem c3_witness :
    ∃ e, Molecule.parse "1\ncomment\nH x 0.0 0.0" = .error e :=
  c3_malformed_atom_line_error "1\ncomment\nH x 0.0 0.0"
    ('H' :: ' ' :: 'x' :: ' ' :: '0' :: '.' :: '0' :: ' ' :: '0' :: '.' :: '0' :: [])
    (by decide)
    (Or.inr ⟨1, ['x'], by decide, by decide, by decide, by decide⟩)

/-- C4: when line 1 declares atom count `n`, a successful parse never returns
more than `n` atoms, and an input with more than `n` atom lines is rejected
with a `FormatError` (the modelled parser resolves the spec's open
trailing-data policy as strict rejection, one of the two permitted choices). -/
theorem c4_no_extra_atoms (s : String) (n : ℕ)
    (hn : declaredCount s.data = some n) :
    (∀ m, Molecule.parse s = .ok m → m.symbols.length ≤ n) ∧
      (n < (atomLinesOf s.data).length → ∃ e, Molecule.parse s = .error e) := by
  constructor
  · intro m hok
    obtain ⟨_, hdc, _, ps, hmm, hsyms, _⟩ := parseCore_ok_elim hok
    rw [hdc] at hn
    have hn' := Option.some_injective _ hn
    have hlen := mapMExcept_ok_length hmm
    rw [hsyms]
    simp only [List.length_map]
    omega
  · intro hlt
    apply except_error_of_not_ok
    intro m hok
    obtain ⟨_, hdc, _, _, _, _, _⟩ := parseCore_ok_elim hok
    rw [hdc] at hn
    have := Option.some_injective _ hn
    omega

theorem c4_witness :
    ∃ e, Molecule.parse "1\nc\nH 0.0 0.0 0.0\nHe 1.0 0.0 0.0" = .error e :=
  (c4_no_extra_atoms "1\nc\nH 0.0 0.0 0.0\nHe 1.0 0.0 0.0" 1 (by decide)).2
    (by decide)

/-- C5: serializing a `Molecule` to XYZ text (count line, comment line, then
one line per atom with the symbol and its 3 coordinates) and re-parsing yields
an equal `Molecule` — exactly equal symbols and coordinates, which is within
any floating-point tolerance.  The hypotheses state the `Molecule` invariants:
aligned sequences, non-empty symbols containing no separator characters, and
coordinates that are floating-point (finite-decimal) values. -/
theorem c5_serialize_parse_roundtrip (m : Molecule)
    (hlen : m.symbols.length = m.coordinates.length)
    (hsym : ∀ sym ∈ m.symbols, sym ≠ [] ∧ ∀ c ∈ sym, c ≠ ' ' ∧ c ≠ '\n')
    (hfd : ∀ p ∈ m.coordinates,
      IsFiniteDecimal p.1 ∧ IsFiniteDecimal p.2.1 ∧ IsFiniteDecimal p.2.2) :
    Molecule.parse (serializeXYZ m) = .ok m :=
  parseCore_serialize m hlen hsym hfd

theorem c5_witness :
    Molecule.parse (serializeXYZ ⟨[['H']], [(mkRat 1 2, mkRat 0 1, mkRat (-3) 4)]⟩) =
      .ok ⟨[['H']], [(mkRat 1 2, mkRat 0 1, mkRat (-3) 4)]⟩ :=
  c5_serialize_parse_roundtrip ⟨[['H']], [(mkRat 1 2, mkRat 0 1, mkRat (-3) 4)]⟩
    (by decide) (by decide)
    (by
      intro p hp
      have hp' : p = (mkRat 1 2, mkRat 0 1, mkRat (-3) 4) := by simpa using hp
      subst hp'
      exact ⟨⟨5, 1, by decide⟩, ⟨0, 0, by decide⟩, ⟨-75, 2, by decide⟩⟩)

/-- C6: parsing is deterministic and side-effect free: it is a pure function
of the input string, so two parses of the same string that succeed yield
`Molecule` values with identical `symbols` and identical `coordinates`. -/
theorem c6_parse_deterministic (s : String) (m₁ m₂ : Molecule)
    (h₁ : Molecule.parse s = .ok m₁) (h₂ : Molecule.parse s = .ok m₂) :
    m₁.symbols = m₂.symbols ∧ m₁.coordinates = m₂.coordinates := by
  have h := h₁.symm.trans h₂
  injection h with h'
  subst h'
  exact ⟨rfl, rfl⟩

theorem c6_witness :
    (⟨[['H'], ['H']], [(mkRat 371 1000, mkRat 0 1, mkRat 0 1),
        (mkRat (-371) 1000, mkRat 0 1, mkRat 0 1)]⟩ : Molecule).symbols =
      (⟨[['H'], ['H']], [(mkRat 371 1000, mkRat 0 1, mkRat 0 1),
        (mkRat (-371) 1000, mkRat 0 1, mkRat 0 1)]⟩ : Molecule).symbols ∧
    (⟨[['H'], ['H']], [(mkRat 371 1000, mkRat 0 1, mkRat 0 1),
        (mkRat (-371) 1000, mkRat 0 1, mkRat 0 1)]⟩ : Molecule).coordinates =
      (⟨[['H'], ['H']], [(mkRat 371 1000, mkRat 0 1, mkRat 0 1),
        (mkRat (-371) 1000, mkRat 0 1, mkRat 0 1)]⟩ : Molecule).coordinates :=
  c6_parse_deterministic "2\nSample H2 molecule\nH 0.3710 0.0 0.0\nH -0.3710 0.0 0.0"
    _ _ (by decide) (by decide)

/-- C7: an input whose line 1 declares atom count 0, with the comment line
present and no atom lines, parses to the `Molecule` with empty `symbols` and
empty `coordinates`. -/
theorem c7_zero_atom_count (s : String) (h0 : declaredCount s.data = some 0)
    (h2 : 2 ≤ (lineSplit s.data).length) (hal : atomLinesOf s.data = []) :
    Molecule.parse s = .ok ⟨[], []⟩ := by
  have hs0 : s.data ≠ [] := by
    intro h
    rw [h] at h2
    simp [lineSplit, splitOnChar] at h2
  have h2' : ¬((lineSplit s.data).length < 2) := by omega
  show parseCore s.data = .ok ⟨[], []⟩
  simp only [parseCore]
  rw [if_neg hs0, h0]
  simp [h2', hal, mapMExcept]

theorem c7_witness : Molecule.parse "0\ncomment" = .ok ⟨[], []⟩ :=
  c7_zero_atom_count "0\ncomment" (by decide) (by decide) (by decide)

/-- C8: parsing terminates on every input string: the single pass over the
bounded input is a total function that either returns a `Molecule` or a
`FormatError`. -/
theorem c8_parse_total (s : String) :
    (∃ m, Molecule.parse s = .ok m) ∨ (∃ e, Molecule.parse s = .error e) := by
  cases h : Molecule.parse s with
  | ok m => exact Or.inl ⟨m, rfl⟩
  | error e => exact Or.inr ⟨e, rfl⟩

/-- C9: the angstrom-to-Bohr conversion (factor 1.88973) is performed by the
caller, not the parser: for a parsed `Molecule`, the symbols passed to the
Hamiltonian construction are the parsed symbols unchanged, and every
coordinate triple passed is the parsed triple multiplied elementwise by
1.88973, while `m.coordinates` itself keeps the parsed angstrom values. -/
theorem c9_bohr_conversion_by_caller (s : String) (m : Molecule)
    (h : Molecule.parse s = .ok m) :
    hamiltonianSymbols m = m.symbols ∧
      (hamiltonianCoordinates m).length = m.coordinates.length ∧
      ∀ (i : ℕ) (p : ℚ × ℚ × ℚ), m.coordinates.get? i = some p →
        (hamiltonianCoordinates m).get? i =
          some (bohrPerAngstrom * p.1, bohrPerAngstrom * p.2.1,
            bohrPerAngstrom * p.2.2) := by
  refine ⟨rfl, by simp [hamiltonianCoordinates], ?_⟩
  intro i p hp
  have hmap : (hamiltonianCoordinates m).get? i =
      (m.coordinates.get? i).map scaleToBohr := by
    simp [hamiltonianCoordinates, List.get?_map]
  rw [hmap, hp]
  rfl

theorem c9_witness :
    (hamiltonianCoordinates ⟨[['H'], ['H']], [(mkRat 371 1000, mkRat 0 1, mkRat 0 1),
        (mkRat (-371) 1000, mkRat 0 1, mkRat 0 1)]⟩).get? 0 =
      some (bohrPerAngstrom * mkRat 371 1000, bohrPerAngstrom * mkRat 0 1,
        bohrPerAngstrom * mkRat 0 1) :=
  (c9_bohr_conversion_by_caller
    "2\nSample H2 molecule\nH 0.3710 0.0 0.0\nH -0.3710 0.0 0.0"
    ⟨[['H'], ['H']], [(mkRat 371 1000, mkRat 0 1, mkRat 0 1),
      (mkRat (-371) 1000, mkRat 0 1, mkRat 0 1)]⟩
    (by decide)).2.2 0 (mkRat 371 1000, mkRat 0 1, mkRat 0 1) (by decide)

/-- C10: the optimization loop runs at most `max_iterations = 200` iterations
and appends exactly one energy per executed iteration, so the recorded trace
has length between 1 and 200; it exits before the 200th iteration only when
`|energy - prev_energy| <= 1e-06` held at the final executed iteration; and
the script's final output is the last energy appended to the trace. -/
theorem c10_vqe_loop_bounds (step : ℚ → ℚ × ℚ) (cost : ℚ → ℚ)
    (theta0 energy0 : ℚ) :
    (vqeEnergies step cost theta0 energy0).length ≤ maxIterations ∧
      1 ≤ (vqeEnergies step cost theta0 energy0).length ∧
      (vqeEnergies step cost theta0 energy0).getLast? =
        some (vqeOutput step cost theta0 energy0) ∧
      ((vqeEnergies step cost theta0 energy0).length < maxIterations →
        ∃ t, vqeOutput step cost theta0 energy0 = cost (step t).1 ∧
          |cost (step t).1 - (step t).2| ≤ convergenceTolerance) := by
  obtain ⟨hub, _, hone⟩ := vqeAux_length step cost maxIterations theta0 energy0 []
  have hG := vqeAux_getLast step cost maxIterations theta0 energy0 []
  have h1 : 1 ≤ (vqeEnergies step cost theta0 energy0).length := by
    have := hone (by norm_num [maxIterations])
    simpa [vqeEnergies, vqeRun] using this
  refine ⟨by simpa [vqeEnergies, vqeRun] using hub, h1, ?_, ?_⟩
  · rcases hG with h | ⟨hes, _⟩
    · simpa [vqeEnergies, vqeOutput, vqeRun] using h
    · exfalso
      have : (vqeEnergies step cost theta0 energy0).length = 0 := by
        simp [vqeEnergies, vqeRun, hes]
      omega
  · intro hlt
    have := vqeAux_early_exit step cost maxIterations theta0 energy0 []
      (by simpa [vqeEnergies, vqeRun] using hlt)
    simpa [vqeOutput, vqeRun] using this
